import Mathlib

/-!
Verification of picard's approximate string comparison
(`picard/util/_astrcmp.c` and the older generation `picard/util/astrcmp.c`).

Both C files compute a restricted Damerau-Levenshtein distance over two
sequences of Unicode code points via a dense `(len1+1) x (len2+1)` dynamic
programming matrix, then normalize to a similarity score
`1 - distance / max(len1, len2)`.

Modelling choices:
* code points (`Py_UCS4` / `Py_UNICODE`) are `Nat`;
* sequences are `List Nat`; the C pointer+length pair `(s, len)` becomes a
  list whose length is `len`;
* the C `int` matrix cells are `Nat` (every value stored is non-negative:
  row 0 and column 0 hold indices and every other cell is a minimum of
  predecessors plus non-negative costs);
* the final `float` result is modelled as a rational number `ℚ`; the C
  computation performs a single exact integer division cast to float, and
  all claims concern exact values, which ℚ represents faithfully;
* the DP matrix is embedded denotationally as a recursive function `mat`
  (cell `(i, j)` of the matrix), defined through a fuel-indexed structural
  recursion `matGo` so that it is kernel-computable; `mat a b i j` uses
  fuel `i + j`, which is always sufficient, as the fuel-irrelevance lemma
  below shows.
-/

namespace Astrcmp

/-- Cell `(i, j)` of the DP matrix of `LevenshteinDistance` in
`picard/util/_astrcmp.c`, computed with explicit fuel (first `Nat`
argument).  Row 0 and column 0 hold the indices; an inner cell is
`min(above+1, left+1, diagonal+cost)` lowered by the restricted
transposition value when `index1 > 2 && index2 > 2`, exactly as in the C
loop body (steps 5, 6 and 6a of the source). -/
def matGo (a b : List Nat) : Nat → Nat → Nat → Nat
  | _, i, 0 => i
  | _, 0, j => j
  | 0, _+1, _+1 => 0
  | fuel+1, i+1, j+1 =>
    let cost : Nat := if a.getD i 0 = b.getD j 0 then 0 else 1
    let above := matGo a b fuel i (j+1)
    let left := matGo a b fuel (i+1) j
    let diagonal := matGo a b fuel i j
    let cell := min (min (above + 1) (left + 1)) (diagonal + cost)
    if i + 1 > 2 ∧ j + 1 > 2 then
      let trans0 := matGo a b fuel (i-1) (j-1) + 1
      let trans1 := if a.getD (i-1) 0 ≠ b.getD j 0 then trans0 + 1 else trans0
      let trans2 := if a.getD i 0 ≠ b.getD (j-1) 0 then trans1 + 1 else trans1
      if cell > trans2 then trans2 else cell
    else cell

/-- Cell `(i, j)` of the DP matrix (`MATRIX(i, j)` after the loops have
passed it) for inputs `a`, `b`. -/
def mat (a b : List Nat) (i j : Nat) : Nat := matGo a b (i + j) i j

/-- `LevenshteinDistance` of `picard/util/_astrcmp.c`: returns `0.0` when
either length is zero, otherwise `1 - matrix[len1][len2] / max(len1, len2)`. -/
def LevenshteinDistance (a b : List Nat) : ℚ :=
  if a.length = 0 then 0
  else if b.length = 0 then 0
  else 1 - (mat a b a.length b.length : ℚ) / (max a.length b.length : ℚ)

/-- The similarity score exposed to Python by the `astrcmp` wrapper of
`_astrcmp.c`, which returns `LevenshteinDistance` unchanged. -/
def similarity (a b : List Nat) : ℚ := LevenshteinDistance a b

/-- `min3` of `picard/util/astrcmp.c` (the older generation), translated
statement by statement. -/
def min3 (x y z : Nat) : Nat :=
  let mi := x
  let mi := if y < mi then y else mi
  if z < mi then z else mi

/-- Cell `(col, row)` of the DP matrix of `LevenshteinDistance` in the
older `picard/util/astrcmp.c`, with explicit fuel.  Identical loop body to
the newer file except that the three-way minimum goes through `min3`. -/
def matOldGo (a b : List Nat) : Nat → Nat → Nat → Nat
  | _, i, 0 => i
  | _, 0, j => j
  | 0, _+1, _+1 => 0
  | fuel+1, i+1, j+1 =>
    let cost : Nat := if a.getD i 0 = b.getD j 0 then 0 else 1
    let above := matOldGo a b fuel i (j+1)
    let left := matOldGo a b fuel (i+1) j
    let diagonal := matOldGo a b fuel i j
    let cell := min3 (above + 1) (left + 1) (diagonal + cost)
    if i + 1 > 2 ∧ j + 1 > 2 then
      let trans0 := matOldGo a b fuel (i-1) (j-1) + 1
      let trans1 := if a.getD (i-1) 0 ≠ b.getD j 0 then trans0 + 1 else trans0
      let trans2 := if a.getD i 0 ≠ b.getD (j-1) 0 then trans1 + 1 else trans1
      if cell > trans2 then trans2 else cell
    else cell

/-- Cell `(i, j)` of the older generation's DP matrix. -/
def matOld (a b : List Nat) (i j : Nat) : Nat := matOldGo a b (i + j) i j

/-- `LevenshteinDistance` of the older `picard/util/astrcmp.c`: on an
empty first input it returns `(float)len2`, on an empty second input
`(float)len1`, otherwise the same normalized score as the newer file.
(The `s1 == NULL || s2 == NULL` guard has no counterpart for lists.) -/
def LevenshteinDistanceOld (a b : List Nat) : ℚ :=
  if a.length = 0 then (b.length : ℚ)
  else if b.length = 0 then (a.length : ℚ)
  else 1 - (matOld a b a.length b.length : ℚ) / (max a.length b.length : ℚ)

/-- Spec-side DP written after the wording of the specification: cell
`(i, j)` is `min(matrix[i-1][j] + 1, matrix[i][j-1] + 1,
matrix[i-1][j-1] + cost)` and, whenever `i > 2` and `j > 2`, the cell is
lowered to `trans = matrix[i-2][j-2] + 1`, incremented once for each
mismatch among `a[i-2] != b[j-1]` and `a[i-1] != b[j-2]`, whenever `trans`
is smaller.  To be compared with `matGo`, the embedding of the source. -/
def specDGo (a b : List Nat) : Nat → Nat → Nat → Nat
  | _, i, 0 => i
  | _, 0, j => j
  | 0, _+1, _+1 => 0
  | fuel+1, i+1, j+1 =>
    let cost : Nat := if a.getD i 0 = b.getD j 0 then 0 else 1
    let cell := min (specDGo a b fuel i (j+1) + 1)
      (min (specDGo a b fuel (i+1) j + 1) (specDGo a b fuel i j + cost))
    if i + 1 > 2 ∧ j + 1 > 2 then
      let mismatches := (if a.getD (i-1) 0 ≠ b.getD j 0 then 1 else 0)
        + (if a.getD i 0 ≠ b.getD (j-1) 0 then 1 else 0)
      let t := specDGo a b fuel (i-1) (j-1) + 1 + mismatches
      if t < cell then t else cell
    else cell

/-- The spec-side distance `D(a, b)` at `(i, j)`. -/
def specD (a b : List Nat) (i j : Nat) : Nat := specDGo a b (i + j) i j

/-- Spec-side plain Levenshtein DP (the recurrence of the specification
without the transposition extension); used to express that the restricted
transposition rule does or does not change the distance on an input. -/
def plainDGo (a b : List Nat) : Nat → Nat → Nat → Nat
  | _, i, 0 => i
  | _, 0, j => j
  | 0, _+1, _+1 => 0
  | fuel+1, i+1, j+1 =>
    let cost : Nat := if a.getD i 0 = b.getD j 0 then 0 else 1
    min (min (plainDGo a b fuel i (j+1) + 1) (plainDGo a b fuel (i+1) j + 1))
      (plainDGo a b fuel i j + cost)

/-- The plain (transposition-free) Levenshtein distance at `(i, j)`. -/
def plainD (a b : List Nat) (i j : Nat) : Nat := plainDGo a b (i + j) i j

/-! ### Flat-array model of the matrix accesses

`_astrcmp.c` stores the matrix in a flat `malloc`ed buffer of
`(len1+1) * (len2+1)` ints and accesses it through
`MATRIX(a, b) = matrix[(b) * (len1 + 1) + (a)]` (the older file's
`GetCellContents`/`PutCellContents` compute the same offset
`col + row * (column_count + 1)` with `column_count = len1`).  To verify
that every access is in bounds and that no cell is read before it has
been written, the buffer is modelled as a `List (Option Nat)` whose
entries start as `none` (uninitialized); a read fails (returns `none`)
if the flat index is out of range or the cell is still `none`, a write
fails if the flat index is out of range, and the whole computation is
run in the `Option` monad, so `runDP a b = some m` states that the C
loops perform no out-of-bounds access and never read an unwritten cell. -/

/-- The flat index of cell `(x, y)`: `MATRIX(x, y) = matrix[y * (len1+1) + x]`. -/
def flatIdx (len1 x y : Nat) : Nat := y * (len1 + 1) + x

/-- Read cell `(x, y)`: fails when out of bounds or uninitialized. -/
def readCell (m : List (Option Nat)) (len1 x y : Nat) : Option Nat :=
  (m[flatIdx len1 x y]?).bind id

/-- Write `v` into cell `(x, y)`: fails when out of bounds. -/
def writeCell (m : List (Option Nat)) (len1 x y v : Nat) : Option (List (Option Nat)) :=
  if flatIdx len1 x y < m.length then some (m.set (flatIdx len1 x y) (some v)) else none

/-- First initialization loop of Step 2: `MATRIX(index1, 0) = index1` for
`index1 = x, x+1, ...` (`k` iterations remaining). -/
def initRow (len1 : Nat) : List (Option Nat) → Nat → Nat → Option (List (Option Nat))
  | m, _, 0 => some m
  | m, x, k+1 =>
    match writeCell m len1 x 0 x with
    | some m2 => initRow len1 m2 (x+1) k
    | none => none

/-- Second initialization loop of Step 2: `MATRIX(0, index2) = index2` for
`index2 = y, y+1, ...` (`k` iterations remaining). -/
def initCol (len1 : Nat) : List (Option Nat) → Nat → Nat → Option (List (Option Nat))
  | m, _, 0 => some m
  | m, y, k+1 =>
    match writeCell m len1 0 y y with
    | some m2 => initCol len1 m2 (y+1) k
    | none => none

/-- Body of the inner loop of `LevenshteinDistance` at `(index1, index2) =
(i, j)`: read `above`, `left`, `diagonal` (and, under the transposition
guard, the two-back diagonal), then write the computed cell. -/
def stepCell (a b : List Nat) (len1 i j : Nat) (m : List (Option Nat)) :
    Option (List (Option Nat)) :=
  (readCell m len1 (i-1) j).bind fun above =>
  (readCell m len1 i (j-1)).bind fun left =>
  (readCell m len1 (i-1) (j-1)).bind fun diagonal =>
  let cost : Nat := if a.getD (i-1) 0 = b.getD (j-1) 0 then 0 else 1
  let cell := min (min (above + 1) (left + 1)) (diagonal + cost)
  if i > 2 ∧ j > 2 then
    (readCell m len1 (i-2) (j-2)).bind fun d2 =>
    let trans0 := d2 + 1
    let trans1 := if a.getD (i-2) 0 ≠ b.getD (j-1) 0 then trans0 + 1 else trans0
    let trans2 := if a.getD (i-1) 0 ≠ b.getD (j-2) 0 then trans1 + 1 else trans1
    writeCell m len1 i j (if cell > trans2 then trans2 else cell)
  else
    writeCell m len1 i j cell

/-- The inner loop (`index2` from `j`, `k` iterations remaining). -/
def innerLoop (a b : List Nat) (len1 i : Nat) :
    List (Option Nat) → Nat → Nat → Option (List (Option Nat))
  | m, _, 0 => some m
  | m, j, k+1 =>
    match stepCell a b len1 i j m with
    | some m2 => innerLoop a b len1 i m2 (j+1) k
    | none => none

/-- The outer loop (`index1` from `i`, `k` iterations remaining); each
iteration runs the inner loop over `index2 = 1 .. len2`. -/
def outerLoop (a b : List Nat) (len1 len2 : Nat) :
    List (Option Nat) → Nat → Nat → Option (List (Option Nat))
  | m, _, 0 => some m
  | m, i, k+1 =>
    match innerLoop a b len1 i m 1 len2 with
    | some m2 => outerLoop a b len1 len2 m2 (i+1) k
    | none => none

/-- The whole matrix phase of `LevenshteinDistance` on the flat buffer:
allocation of `(len1+1) * (len2+1)` uninitialized cells, the two
initialization loops, then the nested loops over `1 ≤ index1 ≤ len1`,
`1 ≤ index2 ≤ len2`. -/
def runDP (a b : List Nat) : Option (List (Option Nat)) :=
  (initRow a.length (List.replicate ((a.length + 1) * (b.length + 1)) none) 0
      (a.length + 1)).bind fun m1 =>
  (initCol a.length m1 0 (b.length + 1)).bind fun m2 =>
  outerLoop a b a.length b.length m2 1 a.length

/-! ### Basic lemmas about the DP recurrences -/

theorem gt_ite_eq_min (x t : Nat) : (if x > t then t else x) = min x t := by
  split <;> omega

theorem lt_ite_eq_min (x t : Nat) : (if t < x then t else x) = min x t := by
  split <;> omega

theorem ite_eq_symm (x y u v : Nat) : (if x = y then u else v) = (if y = x then u else v) := by
  by_cases h : x = y
  · rw [if_pos h, if_pos h.symm]
  · rw [if_neg h, if_neg (fun hh => h hh.symm)]

theorem ite_ne_symm (x y u v : Nat) : (if x ≠ y then u else v) = (if y ≠ x then u else v) := by
  by_cases h : x = y
  · rw [if_neg (fun hh => hh h), if_neg (fun hh => hh h.symm)]
  · rw [if_pos h, if_pos (fun hh => h hh.symm)]

theorem matGo_right_zero (a b : List Nat) (f i : Nat) : matGo a b f i 0 = i := by
  cases f <;> cases i <;> rfl

theorem matGo_left_zero (a b : List Nat) (f j : Nat) : matGo a b f 0 j = j := by
  cases f <;> cases j <;> rfl

/-- The inner-cell recurrence of `matGo`, with the transposition branch
and the final `if (cell > trans) cell = trans` rephrased as minima of the
three edit candidates and the indicator-sum transposition candidate. -/
theorem matGo_succ_min (a b : List Nat) (f i j : Nat) :
    matGo a b (f+1) (i+1) (j+1) =
      if i + 1 > 2 ∧ j + 1 > 2 then
        min (min (min (matGo a b f i (j+1) + 1) (matGo a b f (i+1) j + 1))
          (matGo a b f i j + if a.getD i 0 = b.getD j 0 then 0 else 1))
          (matGo a b f (i-1) (j-1) + 1
            + (if a.getD (i-1) 0 ≠ b.getD j 0 then 1 else 0)
            + (if a.getD i 0 ≠ b.getD (j-1) 0 then 1 else 0))
      else
        min (min (matGo a b f i (j+1) + 1) (matGo a b f (i+1) j + 1))
          (matGo a b f i j + if a.getD i 0 = b.getD j 0 then 0 else 1) := by
  simp only [matGo]
  by_cases hc2 : a.getD (i-1) 0 = b.getD j 0 <;>
  by_cases hc3 : a.getD i 0 = b.getD (j-1) 0 <;>
  by_cases hg : i + 1 > 2 ∧ j + 1 > 2 <;>
  simp only [hc2, hc3, hg, ne_eq, not_true, not_false_iff, not_false_eq_true,
    not_true_eq_false, and_self, and_true, true_and, if_true, if_false,
    ite_true, ite_false, add_zero] <;>
  first
    | omega
    | (rw [gt_ite_eq_min]; try omega)

theorem matGo_irrel (a b : List Nat) :
    ∀ n f g i j, i + j = n → n ≤ f → n ≤ g → matGo a b f i j = matGo a b g i j := by
  intro n
  induction n using Nat.strong_induction_on with
  | _ n IH =>
    intro f g i j hn hf hg
    match i, j with
    | i, 0 => rw [matGo_right_zero, matGo_right_zero]
    | 0, j => rw [matGo_left_zero, matGo_left_zero]
    | i+1, j+1 =>
      obtain ⟨f1, rfl⟩ : ∃ f1, f = f1 + 1 := ⟨f - 1, by omega⟩
      obtain ⟨g1, rfl⟩ : ∃ g1, g = g1 + 1 := ⟨g - 1, by omega⟩
      have h1 : matGo a b f1 i (j+1) = matGo a b g1 i (j+1) :=
        IH (i + (j+1)) (by omega) f1 g1 i (j+1) rfl (by omega) (by omega)
      have h2 : matGo a b f1 (i+1) j = matGo a b g1 (i+1) j :=
        IH ((i+1) + j) (by omega) f1 g1 (i+1) j rfl (by omega) (by omega)
      have h3 : matGo a b f1 i j = matGo a b g1 i j :=
        IH (i + j) (by omega) f1 g1 i j rfl (by omega) (by omega)
      have h4 : matGo a b f1 (i-1) (j-1) = matGo a b g1 (i-1) (j-1) :=
        IH ((i-1) + (j-1)) (by omega) f1 g1 (i-1) (j-1) rfl (by omega) (by omega)
      simp only [matGo, h1, h2, h3, h4]

theorem matGo_eq_mat (a b : List Nat) (f i j : Nat) (h : i + j ≤ f) :
    matGo a b f i j = mat a b i j :=
  matGo_irrel a b (i + j) f (i + j) i j rfl h le_rfl

theorem mat_right_zero (a b : List Nat) (i : Nat) : mat a b i 0 = i :=
  matGo_right_zero a b _ i

theorem mat_left_zero (a b : List Nat) (j : Nat) : mat a b 0 j = j :=
  matGo_left_zero a b _ j

/-- The recurrence satisfied by `mat` at an inner cell, in the exact shape
of the loop body of `_astrcmp.c`. -/
theorem mat_succ (a b : List Nat) (i j : Nat) :
    mat a b (i+1) (j+1) =
      (let cost : Nat := if a.getD i 0 = b.getD j 0 then 0 else 1
       let cell := min (min (mat a b i (j+1) + 1) (mat a b (i+1) j + 1)) (mat a b i j + cost)
       if i + 1 > 2 ∧ j + 1 > 2 then
         let trans0 := mat a b (i-1) (j-1) + 1
         let trans1 := if a.getD (i-1) 0 ≠ b.getD j 0 then trans0 + 1 else trans0
         let trans2 := if a.getD i 0 ≠ b.getD (j-1) 0 then trans1 + 1 else trans1
         if cell > trans2 then trans2 else cell
       else cell) := by
  have h0 : mat a b (i+1) (j+1) = matGo a b ((i + j + 1) + 1) (i+1) (j+1) :=
    (matGo_eq_mat a b ((i + j + 1) + 1) (i+1) (j+1) (by omega)).symm
  rw [h0]
  simp only [matGo]
  rw [matGo_eq_mat a b (i + j + 1) i (j+1) (by omega),
      matGo_eq_mat a b (i + j + 1) (i+1) j (by omega),
      matGo_eq_mat a b (i + j + 1) i j (by omega),
      matGo_eq_mat a b (i + j + 1) (i-1) (j-1) (by omega)]

/-- Standard edit-distance bounds on every cell: `|i - j| ≤ cell (i, j) ≤
max i j` (the lower bound written with truncated subtraction). -/
theorem matGo_bounds (a b : List Nat) :
    ∀ f i j, i + j ≤ f →
      (i - j) + (j - i) ≤ matGo a b f i j ∧ matGo a b f i j ≤ max i j := by
  intro f
  induction f with
  | zero =>
    intro i j h
    obtain ⟨rfl, rfl⟩ : i = 0 ∧ j = 0 := by omega
    rw [matGo_right_zero]
    omega
  | succ f IH =>
    intro i j h
    match i, j with
    | i, 0 => rw [matGo_right_zero]; omega
    | 0, j => rw [matGo_left_zero]; omega
    | i+1, j+1 =>
      have h1 := IH i (j+1) (by omega)
      have h2 := IH (i+1) j (by omega)
      have h3 := IH i j (by omega)
      have h4 := IH (i-1) (j-1) (by omega)
      have hcost : (if a.getD i 0 = b.getD j 0 then (0:Nat) else 1) ≤ 1 := by split <;> omega
      rw [matGo_succ_min]
      by_cases hg : i + 1 > 2 ∧ j + 1 > 2 <;>
        simp only [hg, and_self, if_true, if_false, ite_true, ite_false] <;> omega

theorem mat_le_max (a b : List Nat) (i j : Nat) : mat a b i j ≤ max i j :=
  (matGo_bounds a b (i + j) i j le_rfl).2

theorem dist_le_mat (a b : List Nat) (i j : Nat) : Nat.dist i j ≤ mat a b i j :=
  (matGo_bounds a b (i + j) i j le_rfl).1

theorem matGo_self_diag (a : List Nat) :
    ∀ f i, i + i ≤ f → matGo a a f i i = 0 := by
  intro f
  induction f with
  | zero =>
    intro i h
    obtain rfl : i = 0 := by omega
    rw [matGo_right_zero]
  | succ f IH =>
    intro i h
    match i with
    | 0 => rw [matGo_left_zero]
    | i+1 =>
      have h3 := IH i (by omega)
      have hcost : (if a.getD i 0 = a.getD i 0 then (0:Nat) else 1) = 0 := by simp
      rw [matGo_succ_min]
      by_cases hg : i + 1 > 2 ∧ i + 1 > 2 <;>
        simp only [hg, hcost, and_self, if_true, if_false, ite_true, ite_false] <;> omega

theorem mat_self_diag (a : List Nat) (i : Nat) : mat a a i i = 0 :=
  matGo_self_diag a (i + i) i le_rfl

theorem matGo_symm (a b : List Nat) :
    ∀ f i j, matGo a b f i j = matGo b a f j i := by
  intro f
  induction f with
  | zero =>
    intro i j
    cases i <;> cases j <;> rfl
  | succ f IH =>
    intro i j
    match i, j with
    | i, 0 => rw [matGo_right_zero, matGo_left_zero]
    | 0, j => rw [matGo_left_zero, matGo_right_zero]
    | i+1, j+1 =>
      have h1 : matGo a b f i (j+1) = matGo b a f (j+1) i := IH i (j+1)
      have h2 : matGo a b f (i+1) j = matGo b a f j (i+1) := IH (i+1) j
      have h3 : matGo a b f i j = matGo b a f j i := IH i j
      have h4 : matGo a b f (i-1) (j-1) = matGo b a f (j-1) (i-1) := IH (i-1) (j-1)
      rw [matGo_succ_min, matGo_succ_min]
      by_cases hg : i + 1 > 2 ∧ j + 1 > 2
      · have hg2 : j + 1 > 2 ∧ i + 1 > 2 := ⟨hg.2, hg.1⟩
        rw [if_pos hg, if_pos hg2, h1, h2, h3, h4,
            ite_eq_symm (a.getD i 0) (b.getD j 0),
            ite_ne_symm (a.getD (i-1) 0) (b.getD j 0),
            ite_ne_symm (a.getD i 0) (b.getD (j-1) 0)]
        omega
      · have hg2 : ¬(j + 1 > 2 ∧ i + 1 > 2) := fun hh => hg ⟨hh.2, hh.1⟩
        rw [if_neg hg, if_neg hg2, h1, h2, h3,
            ite_eq_symm (a.getD i 0) (b.getD j 0)]
        omega

theorem mat_symm (a b : List Nat) (i j : Nat) : mat a b i j = mat b a j i := by
  have h := matGo_symm a b (i + j) i j
  rw [mat, h, matGo_eq_mat b a (i + j) j i (by omega)]

theorem min3_eq_min (x y z : Nat) : min3 x y z = min (min x y) z := by
  simp only [min3]
  split_ifs <;> omega

theorem matOldGo_eq (a b : List Nat) :
    ∀ f i j, matOldGo a b f i j = matGo a b f i j := by
  intro f
  induction f with
  | zero =>
    intro i j
    cases i <;> cases j <;> rfl
  | succ f IH =>
    intro i j
    match i, j with
    | i, 0 => cases i <;> rfl
    | 0, j => cases j <;> rfl
    | i+1, j+1 =>
      simp only [matOldGo, matGo, min3_eq_min, IH]

theorem matOld_eq_mat (a b : List Nat) (i j : Nat) : matOld a b i j = mat a b i j :=
  matOldGo_eq a b (i + j) i j

/-- The inner-cell recurrence of the spec-side DP, in minima form. -/
theorem specDGo_succ_min (a b : List Nat) (f i j : Nat) :
    specDGo a b (f+1) (i+1) (j+1) =
      if i + 1 > 2 ∧ j + 1 > 2 then
        min (min (specDGo a b f i (j+1) + 1) (min (specDGo a b f (i+1) j + 1)
          (specDGo a b f i j + if a.getD i 0 = b.getD j 0 then 0 else 1)))
          (specDGo a b f (i-1) (j-1) + 1
            + ((if a.getD (i-1) 0 ≠ b.getD j 0 then 1 else 0)
              + (if a.getD i 0 ≠ b.getD (j-1) 0 then 1 else 0)))
      else
        min (specDGo a b f i (j+1) + 1) (min (specDGo a b f (i+1) j + 1)
          (specDGo a b f i j + if a.getD i 0 = b.getD j 0 then 0 else 1)) := by
  simp only [specDGo]
  by_cases hg : i + 1 > 2 ∧ j + 1 > 2 <;>
    simp only [hg, if_true, if_false, ite_true, ite_false] <;>
    first
      | rfl
      | (rw [lt_ite_eq_min]; try omega)

theorem specDGo_eq (a b : List Nat) :
    ∀ f i j, specDGo a b f i j = matGo a b f i j := by
  intro f
  induction f with
  | zero =>
    intro i j
    cases i <;> cases j <;> rfl
  | succ f IH =>
    intro i j
    match i, j with
    | i, 0 => cases i <;> rfl
    | 0, j => cases j <;> rfl
    | i+1, j+1 =>
      rw [specDGo_succ_min, matGo_succ_min, IH i (j+1), IH (i+1) j, IH i j, IH (i-1) (j-1)]
      by_cases hg : i + 1 > 2 ∧ j + 1 > 2 <;>
        simp only [hg, and_self, if_true, if_false, ite_true, ite_false] <;> omega

theorem specD_eq_mat (a b : List Nat) (i j : Nat) : specD a b i j = mat a b i j :=
  specDGo_eq a b (i + j) i j

/-- The inner-cell recurrence at the `mat` level, in minima form. -/
theorem mat_succ_min (a b : List Nat) (i j : Nat) :
    mat a b (i+1) (j+1) =
      if i + 1 > 2 ∧ j + 1 > 2 then
        min (min (min (mat a b i (j+1) + 1) (mat a b (i+1) j + 1))
          (mat a b i j + if a.getD i 0 = b.getD j 0 then 0 else 1))
          (mat a b (i-1) (j-1) + 1
            + (if a.getD (i-1) 0 ≠ b.getD j 0 then 1 else 0)
            + (if a.getD i 0 ≠ b.getD (j-1) 0 then 1 else 0))
      else
        min (min (mat a b i (j+1) + 1) (mat a b (i+1) j + 1))
          (mat a b i j + if a.getD i 0 = b.getD j 0 then 0 else 1) := by
  have h0 : mat a b (i+1) (j+1) = matGo a b ((i + j + 1) + 1) (i+1) (j+1) :=
    (matGo_eq_mat a b ((i + j + 1) + 1) (i+1) (j+1) (by omega)).symm
  rw [h0, matGo_succ_min,
      matGo_eq_mat a b (i + j + 1) i (j+1) (by omega),
      matGo_eq_mat a b (i + j + 1) (i+1) j (by omega),
      matGo_eq_mat a b (i + j + 1) i j (by omega),
      matGo_eq_mat a b (i + j + 1) (i-1) (j-1) (by omega)]

/-! ### Lemmas about the flat-array model (safety of the matrix accesses) -/

/-- The sequential `trans++` chain of Step 6a followed by
`if (cell > trans) cell = trans`, as a single minimum with indicator sums. -/
theorem trans_chain_min (cell t : Nat) (c2 c3 : Prop) [Decidable c2] [Decidable c3] :
    (if cell > (if c3 then (if c2 then t + 1 + 1 else t + 1) + 1
                else (if c2 then t + 1 + 1 else t + 1))
     then (if c3 then (if c2 then t + 1 + 1 else t + 1) + 1
           else (if c2 then t + 1 + 1 else t + 1))
     else cell)
      = min cell (t + 1 + (if c2 then 1 else 0) + (if c3 then 1 else 0)) := by
  by_cases h2 : c2 <;> by_cases h3 : c3 <;>
    simp only [h2, h3, if_true, if_false, ite_true, ite_false] <;>
    rw [gt_ite_eq_min]

theorem flatIdx_lt (len1 len2 x y : Nat) (hx : x ≤ len1) (hy : y ≤ len2) :
    flatIdx len1 x y < (len1 + 1) * (len2 + 1) := by
  have h1 : (y + 1) * (len1 + 1) ≤ (len2 + 1) * (len1 + 1) :=
    Nat.mul_le_mul_right _ (by omega)
  have h2 : (y + 1) * (len1 + 1) = y * (len1 + 1) + (len1 + 1) := Nat.succ_mul y (len1 + 1)
  have h3 : (len2 + 1) * (len1 + 1) = (len1 + 1) * (len2 + 1) := Nat.mul_comm _ _
  simp only [flatIdx]
  omega

theorem flatIdx_inj (len1 x y x2 y2 : Nat) (hx : x ≤ len1) (hx2 : x2 ≤ len1)
    (h : flatIdx len1 x y = flatIdx len1 x2 y2) : x = x2 ∧ y = y2 := by
  simp only [flatIdx] at h
  rcases Nat.lt_trichotomy y y2 with hy | hy | hy
  · exfalso
    have h1 : (y + 1) * (len1 + 1) ≤ y2 * (len1 + 1) := Nat.mul_le_mul_right _ (by omega)
    have h2 : (y + 1) * (len1 + 1) = y * (len1 + 1) + (len1 + 1) := Nat.succ_mul y (len1 + 1)
    omega
  · subst hy
    omega
  · exfalso
    have h1 : (y2 + 1) * (len1 + 1) ≤ y * (len1 + 1) := Nat.mul_le_mul_right _ (by omega)
    have h2 : (y2 + 1) * (len1 + 1) = y2 * (len1 + 1) + (len1 + 1) := Nat.succ_mul y2 (len1 + 1)
    omega

/-- Invariant tying the flat buffer to the DP: the buffer has the
allocated length, every cell of the logical matrix marked by `P` holds
its DP value, and every other cell is still unwritten. -/
def MState (a b : List Nat) (P : Nat → Nat → Prop) (m : List (Option Nat)) : Prop :=
  m.length = (a.length + 1) * (b.length + 1) ∧
  ∀ x y, x ≤ a.length → y ≤ b.length →
    (P x y → readCell m a.length x y = some (mat a b x y)) ∧
    (¬ P x y → readCell m a.length x y = none)

theorem MState_mono (a b : List Nat) (P Q : Nat → Nat → Prop) (m : List (Option Nat))
    (hpq : ∀ x y, x ≤ a.length → y ≤ b.length → (P x y ↔ Q x y))
    (h : MState a b P m) : MState a b Q m := by
  refine ⟨h.1, fun x y hx hy => ?_⟩
  have h2 := h.2 x y hx hy
  exact ⟨fun hq => h2.1 ((hpq x y hx hy).mpr hq),
    fun hq => h2.2 (fun hp => hq ((hpq x y hx hy).mp hp))⟩

theorem readCell_set_self (m : List (Option Nat)) (len1 x y v : Nat)
    (h : flatIdx len1 x y < m.length) :
    readCell (m.set (flatIdx len1 x y) (some v)) len1 x y = some v := by
  simp only [readCell]
  rw [List.getElem?_set_eq_of_lt _ h]
  rfl

theorem readCell_set_ne (m : List (Option Nat)) (len1 x y x2 y2 v : Nat)
    (hne : flatIdx len1 x y ≠ flatIdx len1 x2 y2) :
    readCell (m.set (flatIdx len1 x y) (some v)) len1 x2 y2 = readCell m len1 x2 y2 := by
  simp only [readCell]
  rw [List.getElem?_set_ne hne]

theorem MState_write (a b : List Nat) (P : Nat → Nat → Prop) (m : List (Option Nat))
    (x0 y0 v : Nat) (hx : x0 ≤ a.length) (hy : y0 ≤ b.length)
    (hv : v = mat a b x0 y0) (hst : MState a b P m) :
    ∃ m2, writeCell m a.length x0 y0 v = some m2 ∧
      MState a b (fun x y => P x y ∨ (x = x0 ∧ y = y0)) m2 := by
  have hlt : flatIdx a.length x0 y0 < m.length := by
    rw [hst.1]
    exact flatIdx_lt a.length b.length x0 y0 hx hy
  refine ⟨m.set (flatIdx a.length x0 y0) (some v), by simp only [writeCell, if_pos hlt],
    by rw [List.length_set]; exact hst.1, fun x y hx2 hy2 => ?_⟩
  by_cases hsame : x = x0 ∧ y = y0
  · obtain ⟨rfl, rfl⟩ := hsame
    constructor
    · intro _
      rw [readCell_set_self m a.length x y v hlt, hv]
    · intro hq
      exact absurd (Or.inr ⟨rfl, rfl⟩) hq
  · have hne : flatIdx a.length x0 y0 ≠ flatIdx a.length x y := by
      intro he
      obtain ⟨he1, he2⟩ := flatIdx_inj a.length x0 y0 x y hx hx2 he
      exact hsame ⟨he1.symm, he2.symm⟩
    have h2 := hst.2 x y hx2 hy2
    constructor
    · intro hq
      rcases hq with hq | hq
      · rw [readCell_set_ne m a.length x0 y0 x y v hne]
        exact h2.1 hq
      · exact absurd hq hsame
    · intro hq
      rw [readCell_set_ne m a.length x0 y0 x y v hne]
      exact h2.2 (fun hp => hq (Or.inl hp))

theorem MState_replicate (a b : List Nat) :
    MState a b (fun _ _ => False)
      (List.replicate ((a.length + 1) * (b.length + 1)) none) := by
  refine ⟨List.length_replicate _ _, fun x y hx hy => ⟨fun h => h.elim, fun _ => ?_⟩⟩
  simp only [readCell]
  rw [List.getElem?_replicate]
  have h := flatIdx_lt a.length b.length x y hx hy
  simp only [if_pos h]
  rfl

theorem initRow_ok (a b : List Nat) :
    ∀ k x0 m, x0 + k = a.length + 1 →
      MState a b (fun x y => y = 0 ∧ x < x0) m →
      ∃ m2, initRow a.length m x0 k = some m2 ∧
        MState a b (fun x y => y = 0) m2 := by
  intro k
  induction k with
  | zero =>
    intro x0 m h0 hst
    exact ⟨m, rfl, MState_mono a b _ _ m (fun x y hx hy => by omega) hst⟩
  | succ k IH =>
    intro x0 m h0 hst
    obtain ⟨m2, hw, hst2⟩ := MState_write a b _ m x0 0 x0 (by omega) (by omega)
      (mat_right_zero a b x0).symm hst
    have hst3 : MState a b (fun x y => y = 0 ∧ x < x0 + 1) m2 :=
      MState_mono a b _ _ m2 (fun x y hx hy => by omega) hst2
    obtain ⟨m3, hrun, hst4⟩ := IH (x0+1) m2 (by omega) hst3
    refine ⟨m3, ?_, hst4⟩
    simp only [initRow, hw, hrun]

theorem initCol_ok (a b : List Nat) :
    ∀ k y0 m, y0 + k = b.length + 1 →
      MState a b (fun x y => y = 0 ∨ (x = 0 ∧ y < y0)) m →
      ∃ m2, initCol a.length m y0 k = some m2 ∧
        MState a b (fun x y => y = 0 ∨ x = 0) m2 := by
  intro k
  induction k with
  | zero =>
    intro y0 m h0 hst
    exact ⟨m, rfl, MState_mono a b _ _ m (fun x y hx hy => by omega) hst⟩
  | succ k IH =>
    intro y0 m h0 hst
    obtain ⟨m2, hw, hst2⟩ := MState_write a b _ m 0 y0 y0 (by omega) (by omega)
      (mat_left_zero a b y0).symm hst
    have hst3 : MState a b (fun x y => y = 0 ∨ (x = 0 ∧ y < y0 + 1)) m2 :=
      MState_mono a b _ _ m2 (fun x y hx hy => by omega) hst2
    obtain ⟨m3, hrun, hst4⟩ := IH (y0+1) m2 (by omega) hst3
    refine ⟨m3, ?_, hst4⟩
    simp only [initCol, hw, hrun]

theorem stepCell_ok (a b : List Nat) (i j : Nat) (hi1 : 1 ≤ i) (hi : i ≤ a.length)
    (hj1 : 1 ≤ j) (hj : j ≤ b.length) (m : List (Option Nat))
    (hst : MState a b (fun x y => x = 0 ∨ y = 0 ∨ x < i ∨ (x = i ∧ y ≤ j - 1)) m) :
    ∃ m2, stepCell a b a.length i j m = some m2 ∧
      MState a b (fun x y => x = 0 ∨ y = 0 ∨ x < i ∨ (x = i ∧ y ≤ j)) m2 := by
  obtain ⟨i1, rfl⟩ : ∃ i1, i = i1 + 1 := ⟨i - 1, by omega⟩
  obtain ⟨j1, rfl⟩ : ∃ j1, j = j1 + 1 := ⟨j - 1, by omega⟩
  have e1 : i1 + 1 - 2 = i1 - 1 := by omega
  have e2 : j1 + 1 - 2 = j1 - 1 := by omega
  have hA := (hst.2 i1 (j1+1) (by omega) hj).1 (by omega)
  have hL := (hst.2 (i1+1) j1 hi (by omega)).1 (by omega)
  have hD := (hst.2 i1 j1 (by omega) (by omega)).1 (by omega)
  by_cases hg : i1 + 1 > 2 ∧ j1 + 1 > 2
  · have hT := (hst.2 (i1-1) (j1-1) (by omega) (by omega)).1 (by omega)
    have hv : min (min (min (mat a b i1 (j1+1) + 1) (mat a b (i1+1) j1 + 1))
        (mat a b i1 j1 + if a.getD i1 0 = b.getD j1 0 then 0 else 1))
        (mat a b (i1-1) (j1-1) + 1
          + (if a.getD (i1-1) 0 ≠ b.getD j1 0 then 1 else 0)
          + (if a.getD i1 0 ≠ b.getD (j1-1) 0 then 1 else 0)) = mat a b (i1+1) (j1+1) := by
      rw [mat_succ_min, if_pos hg]
    obtain ⟨m2, hw, hst2⟩ := MState_write a b _ m (i1+1) (j1+1) _ hi hj hv hst
    refine ⟨m2, ?_, MState_mono a b _ _ m2 (fun x y hx hy => by omega) hst2⟩
    simp only [stepCell, Nat.add_sub_cancel, e1, e2, hA, hL, hD, hT, Option.some_bind,
      hg, and_self, if_true, ite_true, trans_chain_min]
    exact hw
  · have hv : min (min (mat a b i1 (j1+1) + 1) (mat a b (i1+1) j1 + 1))
        (mat a b i1 j1 + if a.getD i1 0 = b.getD j1 0 then 0 else 1)
          = mat a b (i1+1) (j1+1) := by
      rw [mat_succ_min, if_neg hg]
    obtain ⟨m2, hw, hst2⟩ := MState_write a b _ m (i1+1) (j1+1) _ hi hj hv hst
    refine ⟨m2, ?_, MState_mono a b _ _ m2 (fun x y hx hy => by omega) hst2⟩
    simp only [stepCell, Nat.add_sub_cancel, hA, hL, hD, Option.some_bind,
      hg, if_false, ite_false]
    exact hw

theorem innerLoop_ok (a b : List Nat) (i : Nat) (hi1 : 1 ≤ i) (hi : i ≤ a.length) :
    ∀ k j m, 1 ≤ j → j + k = b.length + 1 →
      MState a b (fun x y => x = 0 ∨ y = 0 ∨ x < i ∨ (x = i ∧ y ≤ j - 1)) m →
      ∃ m2, innerLoop a b a.length i m j k = some m2 ∧
        MState a b (fun x y => x = 0 ∨ y = 0 ∨ x < i ∨ (x = i ∧ y ≤ b.length)) m2 := by
  intro k
  induction k with
  | zero =>
    intro j m hj1 h0 hst
    exact ⟨m, rfl, MState_mono a b _ _ m (fun x y hx hy => by omega) hst⟩
  | succ k IH =>
    intro j m hj1 h0 hst
    obtain ⟨m2, hw, hst2⟩ := stepCell_ok a b i j hi1 hi hj1 (by omega) m hst
    have hst3 : MState a b
        (fun x y => x = 0 ∨ y = 0 ∨ x < i ∨ (x = i ∧ y ≤ (j+1) - 1)) m2 :=
      MState_mono a b _ _ m2 (fun x y hx hy => by omega) hst2
    obtain ⟨m3, hrun, hst4⟩ := IH (j+1) m2 (by omega) (by omega) hst3
    exact ⟨m3, by simp only [innerLoop, hw, hrun], hst4⟩

theorem outerLoop_ok (a b : List Nat) :
    ∀ k i m, 1 ≤ i → i + k = a.length + 1 →
      MState a b (fun x y => x = 0 ∨ y = 0 ∨ x < i) m →
      ∃ m2, outerLoop a b a.length b.length m i k = some m2 ∧
        MState a b (fun x y => x = 0 ∨ y = 0 ∨ x < a.length + 1) m2 := by
  intro k
  induction k with
  | zero =>
    intro i m hi1 h0 hst
    exact ⟨m, rfl, MState_mono a b _ _ m (fun x y hx hy => by omega) hst⟩
  | succ k IH =>
    intro i m hi1 h0 hst
    have hst0 : MState a b
        (fun x y => x = 0 ∨ y = 0 ∨ x < i ∨ (x = i ∧ y ≤ 1 - 1)) m :=
      MState_mono a b _ _ m (fun x y hx hy => by omega) hst
    obtain ⟨m2, hw, hst2⟩ :=
      innerLoop_ok a b i hi1 (by omega) b.length 1 m (by omega) (by omega) hst0
    have hst3 : MState a b (fun x y => x = 0 ∨ y = 0 ∨ x < i + 1) m2 :=
      MState_mono a b _ _ m2 (fun x y hx hy => by omega) hst2
    obtain ⟨m3, hrun, hst4⟩ := IH (i+1) m2 (by omega) (by omega) hst3
    exact ⟨m3, by simp only [outerLoop, hw, hrun], hst4⟩

/-! ### Lemmas about `similarity` shared between claims -/

theorem similarity_nonneg (a b : List Nat) : 0 ≤ similarity a b := by
  by_cases h1 : a.length = 0
  · simp [similarity, LevenshteinDistance, h1]
  by_cases h2 : b.length = 0
  · simp [similarity, LevenshteinDistance, h1, h2]
  · have hd : mat a b a.length b.length ≤ max a.length b.length := mat_le_max a b _ _
    have hm : 0 < max a.length b.length := by omega
    have hq : ((mat a b a.length b.length : ℚ)) / ((max a.length b.length : ℚ)) ≤ 1 := by
      rw [div_le_one (by exact_mod_cast hm)]
      exact_mod_cast hd
    simp only [similarity, LevenshteinDistance, h1, h2, if_false, ite_false]
    linarith

theorem similarity_le_one (a b : List Nat) : similarity a b ≤ 1 := by
  by_cases h1 : a.length = 0
  · simp [similarity, LevenshteinDistance, h1]
  by_cases h2 : b.length = 0
  · simp [similarity, LevenshteinDistance, h1, h2]
  · have hq : (0:ℚ) ≤ ((mat a b a.length b.length : ℚ)) / ((max a.length b.length : ℚ)) :=
      div_nonneg (by positivity) (by positivity)
    simp only [similarity, LevenshteinDistance, h1, h2, if_false, ite_false]
    linarith

/-! ### The claims -/

/-- C1: for every pair of non-empty code-point sequences, `similarity`
equals `1 - D(a, b) / max(len1, len2)` where `D` is the dynamic program
described by the specification (row/column 0 hold the indices, inner cells
are the three-way minimum, and for `i > 2`, `j > 2` the cell is lowered to
the transposition candidate `matrix[i-2][j-2] + 1` plus one per mismatch
whenever that is smaller). -/
theorem similarity_eq_one_sub_specD_div_max (a b : List Nat)
    (h1 : 0 < a.length) (h2 : 0 < b.length) :
    similarity a b =
      1 - (specD a b a.length b.length : ℚ) / (max a.length b.length : ℚ) := by
  have ha : ¬(a.length = 0) := by omega
  have hb : ¬(b.length = 0) := by omega
  rw [specD_eq_mat]
  simp [similarity, LevenshteinDistance, ha, hb]

theorem similarity_eq_one_sub_specD_div_max_witness :
    0 < [97, 98].length ∧ 0 < [98].length ∧
      similarity [97, 98] [98] =
        1 - (specD [97, 98] [98] [97, 98].length [98].length : ℚ)
          / (max [97, 98].length [98].length : ℚ) :=
  ⟨by decide, by decide,
    similarity_eq_one_sub_specD_div_max [97, 98] [98] (by decide) (by decide)⟩

/-- C2: whenever at least one of the two sequences is empty, `similarity`
returns exactly `0`; in particular on two empty inputs, on an empty first
input, and on an empty second input. -/
theorem similarity_empty_eq_zero (a b : List Nat) (h : a.length = 0 ∨ b.length = 0) :
    similarity a b = 0 := by
  rcases h with h | h <;> simp [similarity, LevenshteinDistance, h]

theorem similarity_empty_eq_zero_witness :
    (([] : List Nat).length = 0 ∨ [97, 98, 99].length = 0) ∧
      similarity [] [97, 98, 99] = 0 ∧ similarity [] [] = 0 ∧ similarity [97, 98, 99] [] = 0 :=
  ⟨Or.inl rfl, similarity_empty_eq_zero [] [97, 98, 99] (Or.inl rfl),
    similarity_empty_eq_zero [] [] (Or.inl rfl),
    similarity_empty_eq_zero [97, 98, 99] [] (Or.inr rfl)⟩

/-- C3: for every pair of code-point sequences, including empty ones, the
returned score lies in the closed interval `[0, 1]`. -/
theorem similarity_mem_unit_interval (a b : List Nat) :
    0 ≤ similarity a b ∧ similarity a b ≤ 1 :=
  ⟨similarity_nonneg a b, similarity_le_one a b⟩

/-- C4: every matrix cell `(i, j)` with `i ≤ len1`, `j ≤ len2` is at least
`|i - j|` and at most `max i j`; consequently the final distance
`matrix[len1][len2]` is at most `max(len1, len2)` and the normalized score
cannot go below `0`. -/
theorem mat_dist_le_and_le_max (a b : List Nat) (i j : Nat)
    (hi : i ≤ a.length) (hj : j ≤ b.length) :
    (Nat.dist i j ≤ mat a b i j ∧ mat a b i j ≤ max i j) ∧
      mat a b a.length b.length ≤ max a.length b.length ∧ 0 ≤ similarity a b :=
  ⟨⟨dist_le_mat a b i j, mat_le_max a b i j⟩, mat_le_max a b _ _, similarity_nonneg a b⟩

theorem mat_dist_le_and_le_max_witness :
    1 ≤ [97].length ∧ 2 ≤ [98, 99].length ∧
      ((Nat.dist 1 2 ≤ mat [97] [98, 99] 1 2 ∧ mat [97] [98, 99] 1 2 ≤ max 1 2) ∧
        mat [97] [98, 99] [97].length [98, 99].length ≤ max [97].length [98, 99].length ∧
        0 ≤ similarity [97] [98, 99]) :=
  ⟨by decide, by decide, mat_dist_le_and_le_max [97] [98, 99] 1 2 (by decide) (by decide)⟩

/-- C5: on every non-empty sequence compared with itself, `similarity`
returns exactly `1`. -/
theorem similarity_self_eq_one (a : List Nat) (h : a ≠ []) : similarity a a = 1 := by
  have hn : ¬(a.length = 0) := by
    simpa [List.length_eq_zero] using h
  have h0 : mat a a a.length a.length = 0 := mat_self_diag a a.length
  simp [similarity, LevenshteinDistance, hn, h0]

theorem similarity_self_eq_one_witness :
    [97, 98, 99] ≠ ([] : List Nat) ∧ similarity [97, 98, 99] [97, 98, 99] = 1 :=
  ⟨by decide, similarity_self_eq_one [97, 98, 99] (by decide)⟩

/-- C6: `similarity` is symmetric in its two arguments. -/
theorem similarity_comm (a b : List Nat) : similarity a b = similarity b a := by
  by_cases h1 : a.length = 0 <;> by_cases h2 : b.length = 0 <;>
    simp [similarity, LevenshteinDistance, h1, h2, mat_symm a b, max_comm]

/-- C7: on the two-code-point inputs "ab" and "ba" the transposition
look-back cannot fire (both loop indices stay `≤ 2`), so the distance
agrees with the plain DP and equals `2`, and the score is exactly `0`. -/
theorem similarity_ab_ba_eq_zero :
    mat [97, 98] [98, 97] 2 2 = 2 ∧
      mat [97, 98] [98, 97] 2 2 = plainD [97, 98] [98, 97] 2 2 ∧
      similarity [97, 98] [98, 97] = 0 := by
  refine ⟨by decide, by decide, ?_⟩
  have h : mat [97, 98] [98, 97] 2 2 = 2 := by decide
  simp only [similarity, LevenshteinDistance, List.length_cons, List.length_nil]
  norm_num [h]

/-- C8: on "abcd" and "acbd" the restricted transposition rule fires: the
distance is `1` although the plain DP gives `2`, and the score is exactly
`3/4`. -/
theorem similarity_abcd_acbd_eq_three_quarters :
    mat [97, 98, 99, 100] [97, 99, 98, 100] 4 4 = 1 ∧
      plainD [97, 98, 99, 100] [97, 99, 98, 100] 4 4 = 2 ∧
      similarity [97, 98, 99, 100] [97, 99, 98, 100] = 3 / 4 := by
  refine ⟨by decide, by decide, ?_⟩
  have h : mat [97, 98, 99, 100] [97, 99, 98, 100] 4 4 = 1 := by decide
  simp only [similarity, LevenshteinDistance, List.length_cons, List.length_nil]
  norm_num [h]

/-- C9: the two generations of `LevenshteinDistance` agree on every pair
of non-empty inputs, and they genuinely diverge on an input with an empty
side (the older file returns the other side's length unnormalized). -/
theorem old_new_agree_on_nonempty :
    (∀ a b : List Nat, 0 < a.length → 0 < b.length →
        LevenshteinDistanceOld a b = LevenshteinDistance a b) ∧
      LevenshteinDistanceOld [] [97] ≠ LevenshteinDistance [] [97] := by
  constructor
  · intro a b h1 h2
    have ha : ¬(a.length = 0) := by omega
    have hb : ¬(b.length = 0) := by omega
    simp [LevenshteinDistanceOld, LevenshteinDistance, ha, hb, matOld_eq_mat]
  · simp only [LevenshteinDistanceOld, LevenshteinDistance, List.length_nil,
      List.length_cons]
    norm_num

theorem old_new_agree_on_nonempty_witness :
    0 < [97].length ∧ 0 < [98, 99].length ∧
      LevenshteinDistanceOld [97] [98, 99] = LevenshteinDistance [97] [98, 99] :=
  ⟨by decide, by decide, old_new_agree_on_nonempty.1 [97] [98, 99] (by decide) (by decide)⟩

/-- C10: on the flat `(len1+1) * (len2+1)` buffer, the whole matrix phase
of `LevenshteinDistance` — run in the `Option` monad where any
out-of-bounds access and any read of a not-yet-written cell fails —
succeeds for all `len1 > 0`, `len2 > 0`, and the final read of
`MATRIX(len1, len2)` returns the DP value: every flat index
`b * (len1+1) + a` used stays inside the allocation and every cell read
was written earlier. -/
theorem runDP_safe (a b : List Nat) (h1 : 0 < a.length) (h2 : 0 < b.length) :
    ∃ m, runDP a b = some m ∧
      readCell m a.length a.length b.length = some (mat a b a.length b.length) := by
  have hst0 := MState_replicate a b
  have hstA : MState a b (fun x y => y = 0 ∧ x < 0)
      (List.replicate ((a.length + 1) * (b.length + 1)) none) :=
    MState_mono a b _ _ _ (fun x y hx hy => iff_of_false not_false (by omega)) hst0
  obtain ⟨m1, hw1, hst1⟩ := initRow_ok a b (a.length + 1) 0 _ (by omega) hstA
  have hst1b : MState a b (fun x y => y = 0 ∨ (x = 0 ∧ y < 0)) m1 :=
    MState_mono a b _ _ _ (fun x y hx hy => by omega) hst1
  obtain ⟨m2, hw2, hst2⟩ := initCol_ok a b (b.length + 1) 0 m1 (by omega) hst1b
  have hst2b : MState a b (fun x y => x = 0 ∨ y = 0 ∨ x < 1) m2 :=
    MState_mono a b _ _ _ (fun x y hx hy => by omega) hst2
  obtain ⟨m3, hw3, hst3⟩ := outerLoop_ok a b a.length 1 m2 (by omega) (by omega) hst2b
  refine ⟨m3, ?_, (hst3.2 a.length b.length le_rfl le_rfl).1 (by omega)⟩
  simp only [runDP, hw1, hw2, hw3, Option.some_bind]

theorem runDP_safe_witness :
    0 < [97].length ∧ 0 < [98].length ∧
      (∃ m, runDP [97] [98] = some m ∧
        readCell m [97].length [97].length [98].length =
          some (mat [97] [98] [97].length [98].length)) :=
  ⟨by decide, by decide, runDP_safe [97] [98] (by decide) (by decide)⟩

end Astrcmp
